import Mathlib

/-!
Verification of the RQA generation pipeline (`optional_step_RQA.py`).

The development shallowly embeds the numerical core of the pipeline:
normalization, pairwise distance computation, percentile-based threshold
selection, recurrence binarization, fixed-stride downsampling, sparse
encoding, and the per-(series,label) orchestrator.

Modelling conventions:
* floating-point values carrying real data are modelled as exact
  rationals (`ℚ`); where IEEE non-finite values (NaN) can arise, values
  are modelled as `Option ℚ` with `none` standing for a non-finite value;
* `numpy` matrices are lists of rows; out-of-range reads use an explicit
  default, mirroring the fact that the source only indexes in bounds;
* the population standard deviation is irrational in general, so the
  pipeline takes it as a parameter `σ` characterized by
  `0 ≤ σ ∧ σ ^ 2 = pvariance xs`; the degenerate case `σ = 0` (constant
  series) is exact in both the model and IEEE arithmetic.
-/

namespace RQA

/-- Matrix entry read `(M.getD i []).getD j d`, with default `d` out of range.
Source matrices are rectangular and only indexed in bounds. -/
def Mget (d : α) (M : List (List α)) (i j : ℕ) : α :=
  (M.getD i []).getD j d

/-- A list-of-rows matrix is square: every row as long as the column of rows. -/
def IsSquare (M : List (List α)) : Prop :=
  ∀ row ∈ M, row.length = M.length

instance (M : List (List α)) : Decidable (IsSquare M) := by
  unfold IsSquare; infer_instance

/-- Linear interpolation between order statistics of an already-sorted list:
take rank `h = pct/100 * (m-1)` and interpolate between the two
neighbouring sorted values. -/
def percentile_sorted (s : List ℚ) (pct : ℚ) : ℚ :=
  let m := s.length
  let h : ℚ := pct / 100 * ((m : ℚ) - 1)
  let i : ℕ := (⌊h⌋).toNat
  let lo := s.getD i 0
  let hi := s.getD (i + 1) lo
  lo + (h - (i : ℚ)) * (hi - lo)

/-- `np.percentile(l, pct)` with the default linear interpolation between
order statistics: sort, then interpolate at rank `pct/100 * (m-1)`. -/
def np_percentile (l : List ℚ) (pct : ℚ) : ℚ :=
  percentile_sorted (l.mergeSort (fun a b => decide (a ≤ b))) pct

/-- The strict upper triangle `distance_matrix[np.triu_indices_from(·, k=1)]`:
entries `(i, j)` with `i < j`, scanned row-major. -/
def upper_triangle (d : α) (D : List (List α)) : List α :=
  (List.range D.length).flatMap (fun i =>
    (List.range D.length).filterMap (fun j =>
      if i < j then some (Mget d D i j) else none))

/-- Threshold selection step of `calculate_recurrence_matrix` (derived mode):
`np.percentile(upper_triangle, target_recurrence * 100)`. -/
def select_threshold (D : List (List ℚ)) (target_rate : ℚ) : ℚ :=
  np_percentile (upper_triangle 0 D) (target_rate * 100)

/-- Recurrence binarization `(distance_matrix <= threshold).astype(np.uint8)`. -/
def binarize (D : List (List ℚ)) (t : ℚ) : List (List ℕ) :=
  D.map (fun row => row.map (fun x => if x ≤ t then 1 else 0))

/-- `np.sum` over a binary matrix stored as rows. -/
def matSum (B : List (List ℕ)) : ℕ :=
  (B.map List.sum).sum

/-- Recurrence rate `(np.sum(recurrence_matrix) - n) / (n * n - n)`. -/
def recurrence_rate (B : List (List ℕ)) (n : ℕ) : ℚ :=
  ((matSum B : ℚ) - (n : ℚ)) / ((n : ℚ) * (n : ℚ) - (n : ℚ))

/-- Off-diagonal entries (all `(i, j)` with `i ≠ j`) of a square matrix;
used to state the spec's "minimum/maximum off-diagonal distance". -/
def offDiag (D : List (List ℚ)) : List ℚ :=
  (List.range D.length).flatMap (fun i =>
    (List.range D.length).filterMap (fun j =>
      if i ≠ j then some (Mget 0 D i j) else none))

/-- Python slice `l[::f]` with positive step `f`: keep an element when the
countdown hits `0`, then skip `f - 1` elements. -/
def sliceStepAux (f : ℕ) : ℕ → List α → List α
  | _, [] => []
  | 0, x :: xs => x :: sliceStepAux f (f - 1) xs
  | k + 1, _ :: xs => sliceStepAux f k xs

/-- Python slice `l[::f]`: elements at indices `0, f, 2f, …`. -/
def sliceStep (f : ℕ) (l : List α) : List α :=
  sliceStepAux f 0 l

/-- `downsample_for_visualization(time_series, time_values, recurrence_matrix,
max_points=500)`: identity when `n_points ≤ max_points`, otherwise stride
`factor = n_points // max_points` decimation of the series, the times, and
both axes of the matrix. Returns `(data_ds, time_ds, matrix_ds)`. -/
def downsample_for_visualization (time_series : List α) (time_values : List β)
    (recurrence_matrix : List (List ℕ)) (max_points : ℕ) :
    List α × List β × List (List ℕ) :=
  let n_points := time_series.length
  if n_points ≤ max_points then (time_series, time_values, recurrence_matrix)
  else
    let factor := n_points / max_points
    let time_ds := sliceStep factor time_values
    let data_ds := sliceStep factor time_series
    let matrix_ds := (sliceStep factor recurrence_matrix).map (sliceStep factor)
    (data_ds, time_ds, matrix_ds)

/-- `matrix_to_sparse_format`: the `[row, col]` pairs where the matrix is `1`,
in the row-major scan order of `np.where(matrix == 1)`. -/
def matrix_to_sparse_format (m : List (List ℕ)) : List (ℕ × ℕ) :=
  (List.range m.length).flatMap (fun r =>
    (List.range ((m.getD r []).length)).filterMap (fun c =>
      if Mget 0 m r c = 1 then some (r, c) else none))

/-- Modelled from the spec: the round-trip reconstruction used to state the
Sparse Encoder property — a zero-initialized `rows × cols` matrix with `1`
written at every listed `(row, col)` pair. -/
def reconstruct (rows cols : ℕ) (ps : List (ℕ × ℕ)) : List (List ℕ) :=
  (List.range rows).map (fun r =>
    (List.range cols).map (fun c => if (r, c) ∈ ps then 1 else 0))

/-! ### IEEE-aware layer

`RVal` models a double: `some q` is a finite value with exact magnitude `q`,
`none` is a non-finite value (NaN).  In the paths analysed below the only
non-finite value that can arise is NaN (from `0/0` in the normalizer of a
constant series), for which every ordered comparison is false. -/

/-- A floating-point value: `some q` finite, `none` non-finite (NaN). -/
abbrev RVal := Option ℚ

/-- `|a - b|`, propagating non-finite operands. -/
def rdist : RVal → RVal → RVal
  | some x, some y => some |x - y|
  | _, _ => none

/-- IEEE `a <= b`: false whenever an operand is NaN. -/
def rleB : RVal → RVal → Bool
  | some x, some y => decide (x ≤ y)
  | _, _ => false

/-- `np.mean`. -/
def lmean (xs : List ℚ) : ℚ :=
  xs.sum / (xs.length : ℚ)

/-- Population variance, the square of `np.std`. -/
def pvariance (xs : List ℚ) : ℚ :=
  ((xs.map (fun x => (x - lmean xs) ^ 2)).sum) / (xs.length : ℚ)

/-- Normalization `(time_series - np.mean(time_series)) / np.std(time_series)`.
`σ` is the population standard deviation, characterized by
`0 ≤ σ ∧ σ ^ 2 = pvariance xs` (it is irrational in general, so it is a
parameter).  When `σ = 0` every numerator `x - μ` is also exactly `0`, so each
entry is IEEE `0/0 = NaN`, modelled as `none`. -/
def normalizeF (xs : List ℚ) (σ : ℚ) : List RVal :=
  xs.map (fun x => if σ = 0 then none else some ((x - lmean xs) / σ))

/-- `cdist(ts, ts, metric='euclidean')` on scalar points: `|xᵢ - xⱼ|`. -/
def cdistF (l : List RVal) : List (List RVal) :=
  l.map (fun a => l.map (fun b => rdist a b))

/-- `np.percentile` on possibly non-finite data: any non-finite input value
makes the result NaN; on all-finite data it is the exact percentile. -/
def percentileF (l : List RVal) (pct : ℚ) : RVal :=
  if l.all Option.isSome then some (np_percentile (l.filterMap id) pct)
  else none

/-- Binarization against a possibly non-finite threshold; a NaN threshold
compares false against everything, yielding an all-zero matrix. -/
def binarizeF (D : List (List RVal)) (t : RVal) : List (List ℕ) :=
  D.map (fun row => row.map (fun x => if rleB x t then 1 else 0))

/-- `calculate_recurrence_matrix(time_series, threshold, target_recurrence)`:
normalize, build the distance matrix, derive the threshold when none is
supplied, binarize, and compute the recurrence rate
`(np.sum(recurrence_matrix) - n) / (n * n - n)`.
Returns `(recurrence_matrix, threshold, actual_recurrence)`. -/
def calculate_recurrence_matrix (time_series : List ℚ) (σ : ℚ)
    (threshold : Option ℚ) (target_recurrence : ℚ) :
    List (List ℕ) × RVal × ℚ :=
  let ts_normalized := normalizeF time_series σ
  let distance_matrix := cdistF ts_normalized
  let t : RVal :=
    match threshold with
    | some t0 => some t0
    | none => percentileF (upper_triangle none distance_matrix) (target_recurrence * 100)
  let recurrence_matrix := binarizeF distance_matrix t
  let n := time_series.length
  (recurrence_matrix, t,
    ((matSum recurrence_matrix : ℚ) - (n : ℚ)) / ((n : ℚ) * (n : ℚ) - (n : ℚ)))

/-- The result record assembled by `process_rqa_for_datatype`: threshold,
full-resolution recurrence rate, time range (top level and repeated in the
`full_data` block), downsampled time/value arrays, matrix size, sparse pair
list, and the original cleaned point count. -/
structure RQAResult where
  threshold : RVal
  recurrence_rate : ℚ
  time_range : RVal × RVal
  vis_time : List RVal
  vis_data : List ℚ
  matrix_size : ℕ
  sparse_matrix : List (ℕ × ℕ)
  n_points : ℕ
  full_time_range : RVal × RVal
deriving DecidableEq, Inhabited

/-- A loaded dataframe: named columns in file order; `none` entries are the
missing-value sentinel (`NaN`, as tested by `pd.isna`). -/
abbrev Df := List (String × List RVal)

/-- The non-`Time` columns, in order (`data_cols`). -/
def dataCols (df : Df) : List String :=
  (df.map Prod.fst).filter (fun c => c ≠ "Time")

/-- Rows of `(Time, data_col)` kept by the mask `~pd.isna(df[data_col])`. -/
def cleanedRows (df : Df) (col : String) : List (RVal × RVal) :=
  (((df.lookup "Time").getD []).zip ((df.lookup col).getD [])).filter
    (fun p => p.2.isSome)

/-- `time_clean = df['Time'][mask].values`. -/
def time_clean (df : Df) (col : String) : List RVal :=
  (cleanedRows df col).map Prod.fst

/-- `data_clean = df[data_col][mask].values`; the surviving entries are
finite by construction of the mask. -/
def data_clean (df : Df) (col : String) : List ℚ :=
  (cleanedRows df col).filterMap Prod.snd

/-- `process_rqa_for_datatype` on an already-loaded dataframe (file discovery
and CSV parsing belong to external collaborators).  `σ` is the population
standard deviation of the cleaned value column (see `normalizeF`).
`Except.error` marks an uncaught Python exception: `data_cols[0]` raises
`IndexError` when the dataframe has no non-`Time` column.  `Except.ok none`
is a logged skip (`return None`); `Except.ok (some r)` is a result record. -/
def process_rqa_for_datatype (df : Df) (σ : ℚ) : Except Unit (Option RQAResult) :=
  if "Time" ∈ df.map Prod.fst then
    match dataCols df with
    | [] => Except.error ()
    | data_col :: _ =>
      let tc := time_clean df data_col
      let dc := data_clean df data_col
      if dc.length < 10 then Except.ok none
      else
        let res := calculate_recurrence_matrix dc σ none (7 / 100)
        let ds := downsample_for_visualization dc tc res.1 500
        Except.ok (some {
          threshold := res.2.1
          recurrence_rate := res.2.2
          time_range := (tc.headD none, tc.getLastD none)
          vis_time := ds.2.1
          vis_data := ds.1
          matrix_size := ds.2.1.length
          sparse_matrix := matrix_to_sparse_format ds.2.2
          n_points := dc.length
          full_time_range := (tc.headD none, tc.getLastD none) })
  else Except.ok none

instance {ε α : Type _} [DecidableEq ε] [DecidableEq α] : DecidableEq (Except ε α) :=
  fun a b =>
    match a, b with
    | .error e, .error f =>
      if h : e = f then .isTrue (by rw [h])
      else .isFalse (fun hh => h (by cases hh; rfl))
    | .error _, .ok _ => .isFalse (fun hh => Except.noConfusion hh)
    | .ok _, .error _ => .isFalse (fun hh => Except.noConfusion hh)
    | .ok x, .ok y =>
      if h : x = y then .isTrue (by rw [h])
      else .isFalse (fun hh => h (by cases hh; rfl))

/-! ### Concrete data used by the claim witnesses and counterexamples -/

/-- Concrete symmetric distance matrix for the C5 witness. -/
def C5D : List (List ℚ) := [[0, 1, 2], [1, 0, 3], [2, 3, 0]]

/-- Concrete binary matrix for the C6 witness: one off-diagonal 1-entry. -/
def C6B : List (List ℕ) := [[1, 1], [0, 1]]

/-- A 1000-point series for the C7 witness (concrete scenario 3). -/
def v1000 : List ℚ := (List.range 1000).map (fun i : ℕ => (i : ℚ))

/-- Concrete distance matrix for the C9 witness. -/
def C9D : List (List ℚ) := [[0, 1], [1, 0]]

/-- Concrete symmetric recurrence matrix for the C10 witness (stride 2). -/
def C10M : List (List ℕ) := [[1, 1, 0, 0], [1, 1, 0, 0], [0, 0, 1, 1], [0, 0, 1, 1]]

/-- Concrete 4-point series for the C10 witness. -/
def C10V : List ℚ := [0, 1, 2, 3]

/-- Concrete binary matrix for the C8 witness. -/
def C8M : List (List ℕ) := [[1, 0], [0, 1]]

/-- Unsorted time column used to refute C2 as stated: first time 9, last 8,
minimum 0, maximum 9. -/
def cdfTime : List RVal :=
  [some 9, some 0, some 1, some 2, some 3, some 4, some 5, some 6, some 7, some 8]

/-- Alternating value column with population variance exactly 1 (σ = 1). -/
def cdfVals : List RVal :=
  [some 0, some 2, some 0, some 2, some 0, some 2, some 0, some 2, some 0, some 2]

/-- Dataframe with an unsorted time column. -/
def cdf : Df := [("Time", cdfTime), ("pitch", cdfVals)]

/-- Record produced by the pipeline on `cdf`, for the C2 witness. -/
def c2r : RQAResult :=
  ((process_rqa_for_datatype cdf 1).toOption.getD none).getD default

/-- Constant-series dataframe (ten rows, value 5 each): population variance
0, so the true standard deviation is exactly σ = 0. -/
def cdf1 : Df :=
  [("Time", (List.range 10).map (fun i : ℕ => some (i : ℚ))),
   ("pitch", List.replicate 10 (some (5 : ℚ)))]

/-- Dataframe with a Time column and no value column. -/
def cdf3 : Df := [("Time", cdfTime)]


/-! ### List and matrix access lemmas -/

theorem getD_map_nil (g : List α → List β) (hg : g [] = []) (L : List (List α))
    (p : ℕ) : (L.map g).getD p [] = g (L.getD p []) := by
  rcases lt_or_le p L.length with hp | hp
  · rw [List.getD_eq_getElem _ _ (by simpa using hp), List.getD_eq_getElem _ _ hp,
      List.getElem_map]
  · rw [List.getD_eq_default _ _ (by simpa using hp), List.getD_eq_default _ _ hp, hg]

theorem map_range_getD (l : List α) (d : α) :
    (List.range l.length).map (fun j => l.getD j d) = l := by
  apply List.ext_getElem (by simp)
  intro n h1 h2
  simp only [List.getElem_map, List.getElem_range]
  exact List.getD_eq_getElem l d h2

/-! ### Slicing lemmas -/

theorem sliceStepAux_getD {f : ℕ} (hf : 1 ≤ f) (l : List α) :
    ∀ (k p : ℕ) (d : α), (sliceStepAux f k l).getD p d = l.getD (k + p * f) d := by
  induction l with
  | nil => intro k p d; cases k <;> simp [sliceStepAux]
  | cons x xs ih =>
    intro k p d
    match k with
    | 0 =>
      match p with
      | 0 => simp [sliceStepAux]
      | p + 1 =>
        have : (0 : ℕ) + (p + 1) * f = ((f - 1) + p * f) + 1 := by
          rw [Nat.add_mul, Nat.one_mul]; omega
        rw [this]
        simp only [sliceStepAux, List.getD_cons_succ]
        exact ih (f - 1) p d
    | k + 1 =>
      have : (k + 1) + p * f = (k + p * f) + 1 := by omega
      rw [this]
      simp only [sliceStepAux, List.getD_cons_succ]
      exact ih k p d

theorem sliceStep_getD {f : ℕ} (hf : 1 ≤ f) (l : List α) (p : ℕ) (d : α) :
    (sliceStep f l).getD p d = l.getD (p * f) d := by
  simpa using sliceStepAux_getD hf l 0 p d

theorem sliceStepAux_length {f : ℕ} (hf : 1 ≤ f) (l : List α) :
    ∀ k : ℕ, (sliceStepAux f k l).length = (l.length - k + f - 1) / f := by
  induction l with
  | nil =>
    intro k
    have h0 : 0 - k + f - 1 < f := by omega
    rw [show sliceStepAux f k ([] : List α) = [] from by cases k <;> rfl]
    simp only [List.length_nil]
    rw [Nat.div_eq_of_lt h0]
  | cons x xs ih =>
    intro k
    match k with
    | 0 =>
      simp only [sliceStepAux, List.length_cons]
      rw [ih (f - 1)]
      rcases le_or_lt (f - 1) xs.length with hle | hlt
      · have h1 : xs.length - (f - 1) + f - 1 = xs.length := by omega
        have h2 : xs.length + 1 - 0 + f - 1 = xs.length + f := by omega
        rw [h1, h2, Nat.add_div_right _ (by omega)]
      · have h1 : xs.length - (f - 1) + f - 1 < f := by omega
        have h2 : xs.length + 1 - 0 + f - 1 = xs.length + f := by omega
        rw [Nat.div_eq_of_lt h1, h2]
        have : (xs.length + f) / f = 1 := by
          apply Nat.div_eq_of_lt_le (by omega) (by omega)
        omega
    | k + 1 =>
      simp only [sliceStepAux, List.length_cons]
      rw [ih k]
      congr 1
      omega

theorem sliceStep_length {f : ℕ} (hf : 1 ≤ f) (l : List α) :
    (sliceStep f l).length = (l.length + f - 1) / f := by
  have := sliceStepAux_length hf l 0
  simpa [sliceStep] using this

/-! ### Sum lemmas -/

theorem list_sum_eq_range (l : List ℕ) :
    l.sum = ∑ j ∈ Finset.range l.length, l.getD j 0 := by
  induction l with
  | nil => simp
  | cons x xs ih =>
    rw [List.sum_cons, ih, List.length_cons, Finset.sum_range_succ']
    simp
    omega

theorem getD_map_sum (B : List (List ℕ)) (i : ℕ) :
    (B.map List.sum).getD i 0 = (B.getD i []).sum := by
  rcases lt_or_le i B.length with hi | hi
  · rw [List.getD_eq_getElem _ _ (by simpa using hi), List.getD_eq_getElem _ _ hi,
      List.getElem_map]
  · rw [List.getD_eq_default _ _ (by simpa using hi), List.getD_eq_default _ _ hi]
    simp

theorem matSum_eq (B : List (List ℕ)) :
    matSum B = ∑ i ∈ Finset.range B.length, (B.getD i []).sum := by
  unfold matSum
  rw [list_sum_eq_range]
  simp only [List.length_map]
  exact Finset.sum_congr rfl (fun i _ => getD_map_sum B i)

/-! ### Binarization access lemmas -/

theorem binarize_row (D : List (List ℚ)) (t : ℚ) (i : ℕ) :
    (binarize D t).getD i [] = (D.getD i []).map (fun x => if x ≤ t then 1 else 0) := by
  exact getD_map_nil _ rfl D i

theorem length_binarize (D : List (List ℚ)) (t : ℚ) :
    (binarize D t).length = D.length := by
  simp [binarize]

theorem Mget_binarize {D : List (List ℚ)} {t : ℚ} {i j : ℕ}
    (hj : j < (D.getD i []).length) :
    Mget 0 (binarize D t) i j = if Mget 0 D i j ≤ t then 1 else 0 := by
  unfold Mget
  rw [binarize_row]
  rw [List.getD_eq_getElem _ _ (by simpa using hj), List.getD_eq_getElem _ _ hj,
    List.getElem_map]

theorem Mget_binarize_default {D : List (List ℚ)} {t : ℚ} {i j : ℕ}
    (hj : (D.getD i []).length ≤ j) :
    Mget 0 (binarize D t) i j = 0 := by
  unfold Mget
  rw [binarize_row]
  exact List.getD_eq_default _ _ (by simpa using hj)

/-! ### Upper-triangle and off-diagonal membership -/

theorem mem_upper_triangle {d : α} {D : List (List α)} {x : α} :
    x ∈ upper_triangle d D ↔
      ∃ i j, i < D.length ∧ j < D.length ∧ i < j ∧ x = Mget d D i j := by
  unfold upper_triangle
  simp only [List.mem_flatMap, List.mem_filterMap, List.mem_range,
    Option.ite_none_right_eq_some, Option.some.injEq]
  constructor
  · rintro ⟨i, hi, j, hj, hij, hx⟩
    exact ⟨i, j, hi, hj, hij, hx.symm⟩
  · rintro ⟨i, j, hi, hj, hij, hx⟩
    exact ⟨i, hi, j, hj, hij, hx.symm⟩

theorem mem_offDiag {D : List (List ℚ)} {x : ℚ} :
    x ∈ offDiag D ↔
      ∃ i j, i < D.length ∧ j < D.length ∧ i ≠ j ∧ x = Mget 0 D i j := by
  unfold offDiag
  simp only [List.mem_flatMap, List.mem_filterMap, List.mem_range,
    Option.ite_none_right_eq_some, Option.some.injEq]
  constructor
  · rintro ⟨i, hi, j, hj, hij, hx⟩
    exact ⟨i, j, hi, hj, hij, hx.symm⟩
  · rintro ⟨i, j, hi, hj, hij, hx⟩
    exact ⟨i, hi, j, hj, hij, hx.symm⟩

theorem upper_triangle_ne_nil {d : α} {D : List (List α)} (h2 : 2 ≤ D.length) :
    upper_triangle d D ≠ [] := by
  apply List.ne_nil_of_mem (a := Mget d D 0 1)
  exact mem_upper_triangle.mpr ⟨0, 1, by omega, by omega, by omega, rfl⟩

/-! ### Percentile lemmas -/

theorem mergeSort_rat_sorted (l : List ℚ) :
    List.Pairwise (fun a b : ℚ => a ≤ b) (l.mergeSort (fun a b => decide (a ≤ b))) := by
  have h := @List.sorted_mergeSort ℚ (fun a b => decide (a ≤ b))
    (fun a b c h1 h2 => by
      simp only [decide_eq_true_eq] at h1 h2 ⊢
      exact le_trans h1 h2)
    (fun a b => by
      simp only [Bool.or_eq_true, decide_eq_true_eq]
      exact le_total a b) l
  simpa using h

theorem percentile_sorted_eq (s : List ℚ) (pct : ℚ) :
    percentile_sorted s pct =
      s.getD (⌊pct / 100 * ((s.length : ℚ) - 1)⌋).toNat 0 +
        (pct / 100 * ((s.length : ℚ) - 1) -
          ((⌊pct / 100 * ((s.length : ℚ) - 1)⌋).toNat : ℚ)) *
          (s.getD ((⌊pct / 100 * ((s.length : ℚ) - 1)⌋).toNat + 1)
              (s.getD (⌊pct / 100 * ((s.length : ℚ) - 1)⌋).toNat 0) -
            s.getD (⌊pct / 100 * ((s.length : ℚ) - 1)⌋).toNat 0) := rfl

theorem np_percentile_zero {l : List ℚ} (hne : l ≠ []) :
    np_percentile l 0 ∈ l ∧ ∀ x ∈ l, np_percentile l 0 ≤ x := by
  have hperm := List.mergeSort_perm l (fun a b : ℚ => decide (a ≤ b))
  have hsorted := mergeSort_rat_sorted l
  set s := l.mergeSort (fun a b : ℚ => decide (a ≤ b)) with hs
  have hslen : 0 < s.length := by
    rw [List.length_mergeSort l]
    exact List.length_pos.mpr hne
  have hval : np_percentile l 0 = s.getD 0 0 := by
    unfold np_percentile
    rw [← hs, percentile_sorted_eq]
    norm_num
  obtain ⟨a, rest, hrest⟩ := List.exists_cons_of_ne_nil (List.ne_nil_of_length_pos hslen)
  have hget : s.getD 0 0 = a := by rw [hrest]; rfl
  constructor
  · rw [hval, hget]
    exact hperm.mem_iff.mp (by rw [hrest]; exact List.mem_cons_self a rest)
  · intro x hx
    rw [hval, hget]
    have hxs : x ∈ s := hperm.mem_iff.mpr hx
    rw [hrest] at hxs hsorted
    rcases List.mem_cons.mp hxs with h | h
    · exact le_of_eq h.symm
    · exact (List.pairwise_cons.mp hsorted).1 x h

theorem np_percentile_hundred {l : List ℚ} (hne : l ≠ []) :
    np_percentile l 100 ∈ l ∧ ∀ x ∈ l, x ≤ np_percentile l 100 := by
  have hperm := List.mergeSort_perm l (fun a b : ℚ => decide (a ≤ b))
  have hsorted := mergeSort_rat_sorted l
  set s := l.mergeSort (fun a b : ℚ => decide (a ≤ b)) with hs
  have hslen : 0 < s.length := by
    rw [List.length_mergeSort l]
    exact List.length_pos.mpr hne
  have hfloor : ⌊((s.length : ℚ) - 1)⌋ = (s.length : ℤ) - 1 := by
    rw [show ((s.length : ℚ) - 1) = (((s.length : ℤ) - 1 : ℤ) : ℚ) by push_cast; ring,
      Int.floor_intCast]
  have htoNat : ((s.length : ℤ) - 1).toNat = s.length - 1 := by omega
  have hval : np_percentile l 100 = s.getD (s.length - 1) 0 := by
    unfold np_percentile
    rw [← hs, percentile_sorted_eq]
    rw [show (100 : ℚ) / 100 * ((s.length : ℚ) - 1) = (s.length : ℚ) - 1 by ring]
    rw [hfloor, htoNat]
    rw [show ((s.length - 1 : ℕ) : ℚ) = (s.length : ℚ) - 1 by
      rw [Nat.cast_sub hslen]; norm_num]
    ring
  have hidx : s.length - 1 < s.length := by omega
  constructor
  · rw [hval, List.getD_eq_getElem _ _ hidx]
    exact hperm.mem_iff.mp (List.getElem_mem hidx)
  · intro x hx
    rw [hval]
    have hxs : x ∈ s := hperm.mem_iff.mpr hx
    obtain ⟨k, hk, hkx⟩ := List.mem_iff_getElem.mp hxs
    have hgoal : s.getD k 0 ≤ s.getD (s.length - 1) 0 := by
      rcases lt_or_eq_of_le (Nat.le_sub_one_of_lt hk) with hlt | heq
      · rw [List.getD_eq_getElem _ _ hk, List.getD_eq_getElem _ _ hidx]
        exact (List.pairwise_iff_getElem.mp hsorted) k (s.length - 1) hk hidx hlt
      · rw [heq]
    calc x = s.getD k 0 := by rw [List.getD_eq_getElem _ _ hk, hkx]
    _ ≤ s.getD (s.length - 1) 0 := hgoal

theorem np_percentile_nonneg {l : List ℚ} (hne : l ≠ []) {pct : ℚ}
    (h0 : 0 ≤ pct) (h100 : pct ≤ 100) (hpos : ∀ x ∈ l, 0 ≤ x) :
    0 ≤ np_percentile l pct := by
  have hperm := List.mergeSort_perm l (fun a b : ℚ => decide (a ≤ b))
  have hsorted := mergeSort_rat_sorted l
  set s := l.mergeSort (fun a b : ℚ => decide (a ≤ b)) with hs
  have hslen : 0 < s.length := by
    rw [List.length_mergeSort l]
    exact List.length_pos.mpr hne
  have hspos : ∀ x ∈ s, 0 ≤ x := fun x hx => hpos x (hperm.mem_iff.mp hx)
  set h : ℚ := pct / 100 * ((s.length : ℚ) - 1) with hh
  have hh0 : 0 ≤ h := by
    apply mul_nonneg (by positivity)
    have : (1 : ℚ) ≤ (s.length : ℚ) := by exact_mod_cast hslen
    linarith
  have hhle : h ≤ (s.length : ℚ) - 1 := by
    have hle1 : pct / 100 ≤ 1 := by linarith [div_le_one (show (0:ℚ) < 100 by norm_num) |>.mpr h100]
    have : (0 : ℚ) ≤ (s.length : ℚ) - 1 := by
      have : (1 : ℚ) ≤ (s.length : ℚ) := by exact_mod_cast hslen
      linarith
    nlinarith
  set i : ℕ := (⌊h⌋).toNat with hi
  have hfl0 : 0 ≤ ⌊h⌋ := Int.le_floor.mpr (by simpa using hh0)
  have hicast : (i : ℚ) = (⌊h⌋ : ℚ) := by
    rw [hi]
    exact_mod_cast congrArg (Int.cast : ℤ → ℚ) (Int.toNat_of_nonneg hfl0)
  have hile : i < s.length := by
    have h1 : ⌊h⌋ ≤ ⌊((s.length : ℚ) - 1)⌋ := Int.floor_le_floor hhle
    have h2 : ⌊((s.length : ℚ) - 1)⌋ = (s.length : ℤ) - 1 := by
      rw [show ((s.length : ℚ) - 1) = (((s.length : ℤ) - 1 : ℤ) : ℚ) by push_cast; ring,
        Int.floor_intCast]
    omega
  have hgamma0 : 0 ≤ h - (i : ℚ) := by
    rw [hicast]
    linarith [Int.floor_le h]
  have hval : np_percentile l pct =
      s.getD i 0 + (h - (i : ℚ)) * (s.getD (i + 1) (s.getD i 0) - s.getD i 0) := by
    unfold np_percentile
    rw [← hs, percentile_sorted_eq, ← hh, ← hi]
  rw [hval]
  have hlo : 0 ≤ s.getD i 0 := by
    rw [List.getD_eq_getElem _ _ hile]
    exact hspos _ (List.getElem_mem hile)
  rcases lt_or_le (i + 1) s.length with hi1 | hi1
  · have hmono : s.getD i 0 ≤ s.getD (i + 1) (s.getD i 0) := by
      rw [List.getD_eq_getElem _ _ hile, List.getD_eq_getElem _ _ hi1]
      exact (List.pairwise_iff_getElem.mp hsorted) i (i + 1) hile hi1 (by omega)
    nlinarith
  · rw [List.getD_eq_default _ _ hi1]
    simpa using hlo

/-! ### Sparse encoder lemmas -/

theorem mem_sparse {m : List (List ℕ)} {r c : ℕ} :
    (r, c) ∈ matrix_to_sparse_format m ↔
      r < m.length ∧ c < (m.getD r []).length ∧ Mget 0 m r c = 1 := by
  unfold matrix_to_sparse_format
  simp only [List.mem_flatMap, List.mem_filterMap, List.mem_range,
    Option.ite_none_right_eq_some, Option.some.injEq, Prod.mk.injEq]
  constructor
  · rintro ⟨i, hi, j, hj, hij, hir, hjc⟩
    subst hir
    subst hjc
    exact ⟨hi, hj, hij⟩
  · rintro ⟨hr, hc, h1⟩
    exact ⟨r, hr, c, hc, h1, rfl, rfl⟩

/-- Row-major order of the sparse pairs: strictly increasing in the
lexicographic order on `(row, col)`. -/
theorem pairwise_sparse (m : List (List ℕ)) :
    List.Pairwise (fun p q : ℕ × ℕ => p.1 < q.1 ∨ (p.1 = q.1 ∧ p.2 < q.2))
      (matrix_to_sparse_format m) := by
  unfold matrix_to_sparse_format
  rw [List.flatMap_def, List.pairwise_flatten]
  constructor
  · intro l hl
    simp only [List.mem_map, List.mem_range] at hl
    obtain ⟨r, hr, rfl⟩ := hl
    rw [List.pairwise_filterMap]
    apply List.Pairwise.imp ?_ (List.pairwise_lt_range _)
    intro j j' hjj b hb b' hb'
    simp only [Option.mem_def, Option.ite_none_right_eq_some, Option.some.injEq] at hb hb'
    rw [← hb.2, ← hb'.2]
    exact Or.inr ⟨rfl, hjj⟩
  · rw [List.pairwise_map]
    apply List.Pairwise.imp ?_ (List.pairwise_lt_range _)
    intro i i' hii x hx y hy
    simp only [List.mem_filterMap, List.mem_range,
      Option.ite_none_right_eq_some, Option.some.injEq] at hx hy
    obtain ⟨j, hj, hj1, hxe⟩ := hx
    obtain ⟨j', hj', hj1', hye⟩ := hy
    rw [← hxe, ← hye]
    exact Or.inl hii

/-- Round trip: writing `1` at every emitted pair into a zero matrix of the
recorded size reproduces a rectangular binary matrix exactly. -/
theorem reconstruct_sparse {m : List (List ℕ)} {cols : ℕ}
    (hrect : ∀ row ∈ m, row.length = cols)
    (hbin : ∀ r c, r < m.length → c < cols → Mget 0 m r c = 0 ∨ Mget 0 m r c = 1) :
    reconstruct m.length cols (matrix_to_sparse_format m) = m := by
  unfold reconstruct
  apply List.ext_getElem (by simp)
  intro r h1 h2
  simp only [List.getElem_map, List.getElem_range]
  have hrowlen : m[r].length = cols := hrect _ (List.getElem_mem h2)
  have hrowD : m.getD r [] = m[r] := List.getD_eq_getElem m [] h2
  apply List.ext_getElem (by simp [hrowlen])
  intro c hc1 hc2
  simp only [List.getElem_map, List.getElem_range]
  have hcc : c < cols := by simpa using hc1
  have hmg : Mget 0 m r c = m[r][c] := by
    unfold Mget
    rw [hrowD]
    exact List.getD_eq_getElem _ _ hc2
  have hmem : (r, c) ∈ matrix_to_sparse_format m ↔ Mget 0 m r c = 1 := by
    rw [mem_sparse]
    constructor
    · exact fun h => h.2.2
    · intro h
      exact ⟨h2, by rw [hrowD, hrowlen]; exact hcc, h⟩
  rcases hbin r c h2 hcc with h0 | h1v
  · rw [if_neg (by rw [hmem, h0]; omega), ← hmg, h0]
  · rw [if_pos (hmem.mpr h1v), ← hmg, h1v]

/-! ### Matrix sum decomposition -/

theorem getD_row_mem {B : List (List α)} {i : ℕ} (hi : i < B.length) :
    B.getD i [] ∈ B := by
  rw [List.getD_eq_getElem B [] hi]
  exact List.getElem_mem hi

theorem matSum_split {B : List (List ℕ)} {n : ℕ} (hlen : B.length = n)
    (hsq : IsSquare B) :
    matSum B = (∑ i ∈ Finset.range n, Mget 0 B i i) +
      ∑ i ∈ Finset.range n, ∑ j ∈ Finset.range n,
        (if i ≠ j then Mget 0 B i j else 0) := by
  rw [matSum_eq, hlen]
  have hrow : ∀ i ∈ Finset.range n, (B.getD i []).sum =
      Mget 0 B i i + ∑ j ∈ Finset.range n, (if i ≠ j then Mget 0 B i j else 0) := by
    intro i hi
    have hin : i < B.length := by
      rw [hlen]
      exact Finset.mem_range.mp hi
    have hl : (B.getD i []).length = n := by
      rw [hsq _ (getD_row_mem hin), hlen]
    rw [list_sum_eq_range, hl]
    have hptwise : ∀ j ∈ Finset.range n, (B.getD i []).getD j 0 =
        (if j = i then Mget 0 B i j else 0) +
          (if i ≠ j then Mget 0 B i j else 0) := by
      intro j _
      by_cases h : j = i
      · subst h
        simp [Mget]
      · have h2 : i ≠ j := fun hh => h hh.symm
        simp [h, h2, Mget]
    rw [Finset.sum_congr rfl hptwise, Finset.sum_add_distrib,
      Finset.sum_ite_eq' (Finset.range n) i (fun j => Mget 0 B i j), if_pos hi]
  rw [Finset.sum_congr rfl hrow, Finset.sum_add_distrib]

theorem row_sum_eq {B : List (List ℕ)} {n : ℕ} (hlen : B.length = n)
    (hsq : IsSquare B) {i : ℕ} (hi : i < n) :
    (B.getD i []).sum = ∑ j ∈ Finset.range n, Mget 0 B i j := by
  have hin : i < B.length := by omega
  have hl : (B.getD i []).length = n := by
    rw [hsq _ (getD_row_mem hin), hlen]
  rw [list_sum_eq_range, hl]
  rfl

theorem offdiag_card_eq_sum {B : List (List ℕ)} {n : ℕ}
    (hbin : ∀ i j, i < n → j < n → Mget 0 B i j = 0 ∨ Mget 0 B i j = 1) :
    ((Finset.range n ×ˢ Finset.range n).filter
        (fun p => p.1 ≠ p.2 ∧ Mget 0 B p.1 p.2 = 1)).card =
      ∑ i ∈ Finset.range n, ∑ j ∈ Finset.range n,
        (if i ≠ j then Mget 0 B i j else 0) := by
  rw [Finset.card_filter, Finset.sum_product]
  apply Finset.sum_congr rfl
  intro i hi
  apply Finset.sum_congr rfl
  intro j hj
  have hb := hbin i j (Finset.mem_range.mp hi) (Finset.mem_range.mp hj)
  by_cases hij : i = j
  · simp [hij]
  · rcases hb with h0 | h1
    · simp [hij, h0]
    · simp [hij, h1]

theorem matSum_le_sq {B : List (List ℕ)} {n : ℕ} (hlen : B.length = n)
    (hsq : IsSquare B) (hb : ∀ i j, i < n → j < n → Mget 0 B i j ≤ 1) :
    matSum B ≤ n * n := by
  rw [matSum_eq, hlen]
  have hrow : ∀ i ∈ Finset.range n, (B.getD i []).sum ≤ n := by
    intro i hi
    rw [row_sum_eq hlen hsq (Finset.mem_range.mp hi)]
    calc ∑ j ∈ Finset.range n, Mget 0 B i j ≤ ∑ _j ∈ Finset.range n, 1 :=
      Finset.sum_le_sum (fun j hj =>
        hb i j (Finset.mem_range.mp hi) (Finset.mem_range.mp hj))
    _ = n := by simp
  calc (∑ i ∈ Finset.range n, (B.getD i []).sum) ≤ ∑ _i ∈ Finset.range n, n :=
    Finset.sum_le_sum hrow
  _ = n * n := by simp [mul_comm]

theorem diag_le_matSum {B : List (List ℕ)} {n : ℕ} (hlen : B.length = n)
    (hsq : IsSquare B) (hdiag : ∀ i, i < n → Mget 0 B i i = 1) :
    n ≤ matSum B := by
  rw [matSum_eq, hlen]
  have hrow : ∀ i ∈ Finset.range n, 1 ≤ (B.getD i []).sum := by
    intro i hi
    rw [row_sum_eq hlen hsq (Finset.mem_range.mp hi)]
    have h := Finset.single_le_sum (f := fun j => Mget 0 B i j)
      (fun j _ => Nat.zero_le _) hi
    simp only at h
    rw [hdiag i (Finset.mem_range.mp hi)] at h
    exact h
  calc n = ∑ _i ∈ Finset.range n, 1 := by simp
  _ ≤ ∑ i ∈ Finset.range n, (B.getD i []).sum := Finset.sum_le_sum hrow

/-! ### Binarization entry bounds -/

theorem Mget_binarize_le_one (D : List (List ℚ)) (t : ℚ) (i j : ℕ) :
    Mget 0 (binarize D t) i j ≤ 1 := by
  rcases lt_or_le j (D.getD i []).length with h | h
  · rw [Mget_binarize h]
    split <;> omega
  · rw [Mget_binarize_default h]
    omega

theorem Mget_binarize_binary (D : List (List ℚ)) (t : ℚ) (i j : ℕ) :
    Mget 0 (binarize D t) i j = 0 ∨ Mget 0 (binarize D t) i j = 1 := by
  rcases lt_or_le j (D.getD i []).length with h | h
  · rw [Mget_binarize h]
    split <;> omega
  · rw [Mget_binarize_default h]
    omega

theorem isSquare_binarize {D : List (List ℚ)} (hsq : IsSquare D) (t : ℚ) :
    IsSquare (binarize D t) := by
  intro row hrow
  obtain ⟨r0, hr0, rfl⟩ := List.mem_map.mp hrow
  simp only [List.length_map, length_binarize]
  exact hsq _ hr0

theorem binarize_diag {D : List (List ℚ)} {t : ℚ} (ht : 0 ≤ t) {n : ℕ}
    (hlen : D.length = n) (hsq : IsSquare D)
    (hdiag : ∀ i, i < n → Mget 0 D i i = 0) {i : ℕ} (hi : i < n) :
    Mget 0 (binarize D t) i i = 1 := by
  have hin : i < D.length := by omega
  have hl : (D.getD i []).length = n := by
    rw [hsq _ (getD_row_mem hin), hlen]
  rw [Mget_binarize (by omega), hdiag i hi, if_pos ht]

theorem matSum_binarize_neg {D : List (List ℚ)} {t : ℚ} (ht : t < 0)
    (hpos : ∀ i j, i < D.length → j < (D.getD i []).length → 0 ≤ Mget 0 D i j) :
    matSum (binarize D t) = 0 := by
  unfold matSum binarize
  rw [List.sum_eq_zero]
  intro x hx
  simp only [List.map_map, List.mem_map] at hx
  obtain ⟨row0, hrow0, rfl⟩ := hx
  simp only [Function.comp_apply]
  rw [List.sum_eq_zero]
  intro y hy
  obtain ⟨v, hv, rfl⟩ := List.mem_map.mp hy
  obtain ⟨i, hi, hieq⟩ := List.mem_iff_getElem.mp hrow0
  obtain ⟨j, hj, hjeq⟩ := List.mem_iff_getElem.mp hv
  have hjlen : j < (D.getD i []).length := by
    rw [List.getD_eq_getElem D [] hi, hieq]
    exact hj
  have hval : Mget 0 D i j = v := by
    unfold Mget
    rw [List.getD_eq_getElem D [] hi, hieq, List.getD_eq_getElem _ _ hj, hjeq]
  have h0 : 0 ≤ v := by
    rw [← hval]
    exact hpos i j hi hjlen
  rw [if_neg (by linarith)]

/-! ### Downsampler access lemmas -/

theorem downsample_id (ts : List α) (tv : List β) (m : List (List ℕ)) {mp : ℕ}
    (h : ts.length ≤ mp) :
    downsample_for_visualization ts tv m mp = (ts, tv, m) := by
  unfold downsample_for_visualization
  rw [if_pos h]

theorem downsample_stride (ts : List α) (tv : List β) (m : List (List ℕ)) {mp : ℕ}
    (h : mp < ts.length) :
    downsample_for_visualization ts tv m mp =
      (sliceStep (ts.length / mp) ts, sliceStep (ts.length / mp) tv,
        (sliceStep (ts.length / mp) m).map (sliceStep (ts.length / mp))) := by
  unfold downsample_for_visualization
  rw [if_neg (by omega)]

theorem Mget_slice_matrix {f : ℕ} (hf : 1 ≤ f) (m : List (List ℕ)) (p q : ℕ) :
    Mget 0 ((sliceStep f m).map (sliceStep f)) p q = Mget 0 m (p * f) (q * f) := by
  unfold Mget
  rw [getD_map_nil (sliceStep f) rfl, sliceStep_getD hf, sliceStep_getD hf]

theorem sliceStepAux_subset (f : ℕ) (l : List α) :
    ∀ (k : ℕ), ∀ x ∈ sliceStepAux f k l, x ∈ l := by
  induction l with
  | nil =>
    intro k x hx
    cases k <;> simp [sliceStepAux] at hx
  | cons a as ih =>
    intro k x hx
    match k with
    | 0 =>
      simp only [sliceStepAux, List.mem_cons] at hx
      rcases hx with h | h
      · exact List.mem_cons.mpr (Or.inl h)
      · exact List.mem_cons.mpr (Or.inr (ih (f - 1) x h))
    | k + 1 =>
      simp only [sliceStepAux] at hx
      exact List.mem_cons.mpr (Or.inr (ih k x hx))

theorem slice_matrix_length {f : ℕ} (hf : 1 ≤ f) (m : List (List ℕ)) :
    ((sliceStep f m).map (sliceStep f)).length = (m.length + f - 1) / f := by
  rw [List.length_map, sliceStep_length hf]

theorem slice_matrix_square {f : ℕ} (hf : 1 ≤ f) {m : List (List ℕ)}
    (hsq : IsSquare m) : IsSquare ((sliceStep f m).map (sliceStep f)) := by
  intro row hrow
  obtain ⟨r0, hr0, rfl⟩ := List.mem_map.mp hrow
  have hr0m : r0 ∈ m := sliceStepAux_subset f m 0 r0 hr0
  rw [sliceStep_length hf, slice_matrix_length hf, hsq r0 hr0m]

theorem lt_of_lt_slice_len {f n p : ℕ} (hf : 1 ≤ f) (h : p < (n + f - 1) / f) :
    p * f < n := by
  by_contra h2
  push_neg at h2
  have h3 : (n + f - 1) / f ≤ p := by
    rw [Nat.div_le_iff_le_mul_add_pred (by omega)]
    have : f * p = p * f := Nat.mul_comm f p
    omega
  omega

/-- The sparse pair list of a square symmetric unit-diagonal binary matrix
contains the mirror of every pair and every diagonal pair. -/
theorem sparse_symm_diag {M : List (List ℕ)} (hsq : IsSquare M)
    (hsym : ∀ i j, i < M.length → j < M.length → Mget 0 M i j = Mget 0 M j i)
    (hdiag : ∀ i, i < M.length → Mget 0 M i i = 1) :
    (∀ r c, (r, c) ∈ matrix_to_sparse_format M →
      (c, r) ∈ matrix_to_sparse_format M) ∧
    (∀ p, p < M.length → (p, p) ∈ matrix_to_sparse_format M) := by
  constructor
  · intro r c hm
    obtain ⟨hr, hc, h1⟩ := mem_sparse.mp hm
    have hclen : c < M.length := by
      rw [← hsq _ (getD_row_mem hr)]
      exact hc
    apply mem_sparse.mpr
    refine ⟨hclen, ?_, ?_⟩
    · rw [hsq _ (getD_row_mem hclen)]
      exact hr
    · rw [hsym c r hclen hr]
      exact h1
  · intro p hp
    apply mem_sparse.mpr
    refine ⟨hp, ?_, hdiag p hp⟩
    rw [hsq _ (getD_row_mem hp)]
    exact hp

/-! ### Claim theorems -/

/-- C4: for every distance matrix (square and symmetric with zero diagonal,
as the data model defines a Distance Matrix) and every threshold `t`
(non-negative, as the data model defines a Threshold), the recurrence matrix
produced by the Binarizer is symmetric and has all diagonal entries 1. -/
theorem C4_binarize_symmetric_unit_diag (D : List (List ℚ)) (t : ℚ) (ht : 0 ≤ t)
    (hsq : IsSquare D)
    (hsym : ∀ i j, i < D.length → j < D.length → Mget 0 D i j = Mget 0 D j i)
    (hdiag : ∀ i, i < D.length → Mget 0 D i i = 0) :
    (∀ i j, i < D.length → j < D.length →
      Mget 0 (binarize D t) i j = Mget 0 (binarize D t) j i) ∧
    (∀ i, i < D.length → Mget 0 (binarize D t) i i = 1) := by
  constructor
  · intro i j hi hj
    have hrow_i : (D.getD i []).length = D.length := hsq _ (getD_row_mem hi)
    have hrow_j : (D.getD j []).length = D.length := hsq _ (getD_row_mem hj)
    rw [Mget_binarize (by omega), Mget_binarize (by omega), hsym i j hi hj]
  · intro i hi
    exact binarize_diag ht rfl hsq hdiag hi

theorem C4_witness :
    Mget 0 (binarize [[0, 1], [1, 0]] (1 / 2)) 0 1 =
      Mget 0 (binarize [[0, 1], [1, 0]] (1 / 2)) 1 0 ∧
    Mget 0 (binarize [[0, 1], [1, 0]] (1 / 2)) 0 0 = 1 := by
  have h := C4_binarize_symmetric_unit_diag [[0, 1], [1, 0]] (1 / 2) (by norm_num)
    (by decide)
    (by
      intro i j hi hj
      simp only [List.length_cons, List.length_nil] at hi hj
      interval_cases i <;> interval_cases j <;> decide)
    (by
      intro i hi
      simp only [List.length_cons, List.length_nil] at hi
      interval_cases i <;> decide)
  exact ⟨h.1 0 1 (by norm_num) (by norm_num), h.2 0 (by norm_num)⟩

/-- C5: the derived threshold is the linear-interpolation percentile at rank
`target_rate * 100` of the strict upper-triangle distances; in particular, at
target rate 0 it is the minimum off-diagonal distance of a symmetric distance
matrix and at target rate 1 the maximum. -/
theorem C5_select_threshold_percentile (D : List (List ℚ)) (h2 : 2 ≤ D.length)
    (hsym : ∀ i j, i < D.length → j < D.length → Mget 0 D i j = Mget 0 D j i) :
    (∀ r : ℚ, select_threshold D r = np_percentile (upper_triangle 0 D) (r * 100)) ∧
    (select_threshold D 0 ∈ offDiag D ∧ ∀ x ∈ offDiag D, select_threshold D 0 ≤ x) ∧
    (select_threshold D 1 ∈ offDiag D ∧ ∀ x ∈ offDiag D, x ≤ select_threshold D 1) := by
  have hne : upper_triangle 0 D ≠ [] := upper_triangle_ne_nil h2
  have hmm : ∀ x, x ∈ upper_triangle 0 D → x ∈ offDiag D := by
    intro x hx
    obtain ⟨i, j, hi, hj, hij, rfl⟩ := mem_upper_triangle.mp hx
    exact mem_offDiag.mpr ⟨i, j, hi, hj, by omega, rfl⟩
  have hmm2 : ∀ x, x ∈ offDiag D → x ∈ upper_triangle 0 D := by
    intro x hx
    obtain ⟨i, j, hi, hj, hij, rfl⟩ := mem_offDiag.mp hx
    rcases lt_or_gt_of_ne hij with h | h
    · exact mem_upper_triangle.mpr ⟨i, j, hi, hj, h, rfl⟩
    · rw [hsym i j hi hj]
      exact mem_upper_triangle.mpr ⟨j, i, hj, hi, h, rfl⟩
  refine ⟨fun r => rfl, ?_, ?_⟩
  · have h0 := np_percentile_zero hne
    have hsel : select_threshold D 0 = np_percentile (upper_triangle 0 D) 0 := by
      unfold select_threshold
      norm_num
    rw [hsel]
    exact ⟨hmm _ h0.1, fun x hx => h0.2 x (hmm2 x hx)⟩
  · have h100 := np_percentile_hundred hne
    have hsel : select_threshold D 1 = np_percentile (upper_triangle 0 D) 100 := by
      unfold select_threshold
      norm_num
    rw [hsel]
    exact ⟨hmm _ h100.1, fun x hx => h100.2 x (hmm2 x hx)⟩

theorem C5_witness :
    select_threshold C5D 0 ∈ offDiag C5D ∧ select_threshold C5D 0 ≤ 3 ∧
    select_threshold C5D 1 ∈ offDiag C5D ∧ (2 : ℚ) ≤ select_threshold C5D 1 := by
  have h := C5_select_threshold_percentile C5D (by decide)
    (by
      intro i j hi hj
      simp only [C5D, List.length_cons, List.length_nil] at hi hj
      interval_cases i <;> interval_cases j <;> decide)
  exact ⟨h.2.1.1, h.2.1.2 3 (by decide), h.2.2.1, h.2.2.2 2 (by decide)⟩

/-- C6: for every n×n recurrence matrix (binary, unit diagonal, per the data
model) with exactly k off-diagonal 1-entries, the recurrence rate computed by
the pipeline equals k/(n²−n) exactly. -/
theorem C6_recurrence_rate_exact (B : List (List ℕ)) (n k : ℕ) (_hn : 2 ≤ n)
    (hlen : B.length = n) (hsq : IsSquare B)
    (hbin : ∀ i j, i < n → j < n → Mget 0 B i j = 0 ∨ Mget 0 B i j = 1)
    (hdiag : ∀ i, i < n → Mget 0 B i i = 1)
    (hk : k = ((Finset.range n ×ˢ Finset.range n).filter
      (fun p => p.1 ≠ p.2 ∧ Mget 0 B p.1 p.2 = 1)).card) :
    recurrence_rate B n = (k : ℚ) / ((n : ℚ) * (n : ℚ) - (n : ℚ)) := by
  have hsum : matSum B = n + k := by
    rw [matSum_split hlen hsq, hk, offdiag_card_eq_sum hbin]
    congr 1
    calc ∑ i ∈ Finset.range n, Mget 0 B i i = ∑ _i ∈ Finset.range n, 1 :=
      Finset.sum_congr rfl (fun i hi => hdiag i (Finset.mem_range.mp hi))
    _ = n := by simp
  unfold recurrence_rate
  rw [hsum]
  push_cast
  ring

theorem C6_witness :
    recurrence_rate C6B 2 = (1 : ℚ) / ((2 : ℚ) * 2 - 2) := by
  exact C6_recurrence_rate_exact C6B 2 1 (by norm_num) (by decide) (by decide)
    (by
      intro i j hi hj
      interval_cases i <;> interval_cases j <;> decide)
    (by
      intro i hi
      interval_cases i <;> decide)
    (by decide)

/-- C7: the Downsampler is the identity when n ≤ max_points; otherwise it
keeps every stride-th element (stride = n // max_points, starting at index 0)
of the values and times, and samples the matrix on both axes at the same
stride: matrix'[p, q] = matrix[p·stride, q·stride]. -/
theorem C7_downsample_stride {α β : Type _} (v : List α) (tv : List β)
    (m : List (List ℕ)) (mp : ℕ) (hmp : 0 < mp) :
    (v.length ≤ mp → downsample_for_visualization v tv m mp = (v, tv, m)) ∧
    (mp < v.length →
      (downsample_for_visualization v tv m mp).1.length =
        (v.length + v.length / mp - 1) / (v.length / mp) ∧
      (downsample_for_visualization v tv m mp).2.1.length =
        (tv.length + v.length / mp - 1) / (v.length / mp) ∧
      (∀ p d, (downsample_for_visualization v tv m mp).1.getD p d =
        v.getD (p * (v.length / mp)) d) ∧
      (∀ p d, (downsample_for_visualization v tv m mp).2.1.getD p d =
        tv.getD (p * (v.length / mp)) d) ∧
      (∀ p q, Mget 0 (downsample_for_visualization v tv m mp).2.2 p q =
        Mget 0 m (p * (v.length / mp)) (q * (v.length / mp)))) := by
  constructor
  · exact downsample_id v tv m
  · intro h
    have hf : 1 ≤ v.length / mp := (Nat.one_le_div_iff hmp).mpr (by omega)
    rw [downsample_stride v tv m h]
    exact ⟨sliceStep_length hf v, sliceStep_length hf tv,
      fun p d => sliceStep_getD hf v p d, fun p d => sliceStep_getD hf tv p d,
      fun p q => Mget_slice_matrix hf m p q⟩

theorem C7_witness :
    (downsample_for_visualization v1000 v1000 ([] : List (List ℕ)) 500).1.length = 500 ∧
    (downsample_for_visualization v1000 v1000 ([] : List (List ℕ)) 500).2.1.getD 3 0 =
      v1000.getD 6 0 := by
  have hlen : v1000.length = 1000 := by
    unfold v1000
    rw [List.length_map, List.length_range]
  have h := (C7_downsample_stride v1000 v1000 ([] : List (List ℕ)) 500
    (by norm_num)).2 (by rw [hlen]; norm_num)
  have h1 := h.1
  rw [hlen] at h1
  rw [show (1000 + 1000 / 500 - 1) / (1000 / 500) = 500 from by norm_num] at h1
  have h2 := h.2.2.2.1 3 (0 : ℚ)
  rw [hlen] at h2
  rw [show 3 * (1000 / 500) = 6 from by norm_num] at h2
  exact ⟨h1, h2⟩

/-- C8: the Sparse Encoder emits exactly the coordinates of the 1-entries, in
row-major order (row ascending, then column ascending), and writing 1 at
every emitted pair into a zero matrix of the recorded size reproduces the
input binary matrix. -/
theorem C8_sparse_encoder_roundtrip (m : List (List ℕ)) (cols : ℕ)
    (hrect : ∀ row ∈ m, row.length = cols)
    (hbin : ∀ r c, r < m.length → c < cols →
      Mget 0 m r c = 0 ∨ Mget 0 m r c = 1) :
    (∀ r c, (r, c) ∈ matrix_to_sparse_format m ↔
      r < m.length ∧ c < cols ∧ Mget 0 m r c = 1) ∧
    List.Pairwise (fun p q : ℕ × ℕ => p.1 < q.1 ∨ (p.1 = q.1 ∧ p.2 < q.2))
      (matrix_to_sparse_format m) ∧
    reconstruct m.length cols (matrix_to_sparse_format m) = m := by
  refine ⟨?_, pairwise_sparse m, reconstruct_sparse hrect hbin⟩
  intro r c
  rw [mem_sparse]
  constructor
  · rintro ⟨h1, h2, h3⟩
    refine ⟨h1, ?_, h3⟩
    rw [← hrect _ (getD_row_mem h1)]
    exact h2
  · rintro ⟨h1, h2, h3⟩
    refine ⟨h1, ?_, h3⟩
    rw [hrect _ (getD_row_mem h1)]
    exact h2

/-- C9 (implicit): with a derived threshold — a percentile of the
non-negative distances — the threshold is non-negative, so the recurrence
matrix has unit diagonal and the computed recurrence rate lies in [0, 1];
for a caller-supplied negative threshold the rate formula
(sum − n)/(n² − n) is negative. -/
theorem C9_derived_threshold_invariants (D : List (List ℚ)) (n : ℕ) (hn : 2 ≤ n)
    (hlen : D.length = n) (hsq : IsSquare D)
    (hpos : ∀ i j, i < n → j < n → 0 ≤ Mget 0 D i j)
    (hdiag : ∀ i, i < n → Mget 0 D i i = 0)
    (r : ℚ) (hr0 : 0 ≤ r) (hr1 : r ≤ 1) :
    0 ≤ select_threshold D r ∧
    (∀ i, i < n → Mget 0 (binarize D (select_threshold D r)) i i = 1) ∧
    0 ≤ recurrence_rate (binarize D (select_threshold D r)) n ∧
    recurrence_rate (binarize D (select_threshold D r)) n ≤ 1 ∧
    (∀ t : ℚ, t < 0 → recurrence_rate (binarize D t) n < 0) := by
  have h2 : 2 ≤ D.length := by omega
  have hne : upper_triangle (0 : ℚ) D ≠ [] := upper_triangle_ne_nil h2
  have hUTpos : ∀ x ∈ upper_triangle (0 : ℚ) D, 0 ≤ x := by
    intro x hx
    obtain ⟨i, j, hi, hj, hij, rfl⟩ := mem_upper_triangle.mp hx
    exact hpos i j (by omega) (by omega)
  have ht0 : 0 ≤ select_threshold D r := by
    unfold select_threshold
    exact np_percentile_nonneg hne (by positivity) (by nlinarith) hUTpos
  have hden : (0 : ℚ) < (n : ℚ) * (n : ℚ) - (n : ℚ) := by
    have hcast : (2 : ℚ) ≤ (n : ℚ) := by exact_mod_cast hn
    nlinarith
  set B := binarize D (select_threshold D r) with hB
  have hlenB : B.length = n := by
    rw [hB, length_binarize, hlen]
  have hsqB : IsSquare B := isSquare_binarize hsq _
  have hdiagB : ∀ i, i < n → Mget 0 B i i = 1 := fun i hi =>
    binarize_diag ht0 hlen hsq hdiag hi
  have hlow : n ≤ matSum B := diag_le_matSum hlenB hsqB hdiagB
  have hhigh : matSum B ≤ n * n :=
    matSum_le_sq hlenB hsqB (fun i j _ _ => Mget_binarize_le_one D _ i j)
  refine ⟨ht0, hdiagB, ?_, ?_, ?_⟩
  · unfold recurrence_rate
    apply div_nonneg ?_ (le_of_lt hden)
    have : (n : ℚ) ≤ (matSum B : ℚ) := by exact_mod_cast hlow
    linarith
  · unfold recurrence_rate
    rw [div_le_one hden]
    have : (matSum B : ℚ) ≤ (n : ℚ) * (n : ℚ) := by exact_mod_cast hhigh
    linarith
  · intro t ht
    have hz : matSum (binarize D t) = 0 := by
      apply matSum_binarize_neg ht
      intro i j hi hj
      have hrow : (D.getD i []).length = n := by
        rw [hsq _ (getD_row_mem hi), hlen]
      exact hpos i j (by omega) (by omega)
    unfold recurrence_rate
    rw [hz]
    apply div_neg_of_neg_of_pos ?_ hden
    have hcast : (2 : ℚ) ≤ (n : ℚ) := by exact_mod_cast hn
    norm_num
    linarith

theorem C9_witness :
    0 ≤ select_threshold C9D (1 / 2) ∧
    Mget 0 (binarize C9D (select_threshold C9D (1 / 2))) 0 0 = 1 ∧
    0 ≤ recurrence_rate (binarize C9D (select_threshold C9D (1 / 2))) 2 ∧
    recurrence_rate (binarize C9D (-1)) 2 < 0 := by
  have h := C9_derived_threshold_invariants C9D 2 (by norm_num) (by decide) (by decide)
    (by
      intro i j hi hj
      interval_cases i <;> interval_cases j <;> decide)
    (by
      intro i hi
      interval_cases i <;> decide)
    (1 / 2) (by norm_num) (by norm_num)
  exact ⟨h.1, h.2.1 0 (by norm_num), h.2.2.1, h.2.2.2.2 (-1) (by norm_num)⟩

/-- C10 (implicit): the Downsampler preserves symmetry and the all-ones
diagonal of the recurrence matrix, so the sparse pair list of the
downsampled matrix contains (c, r) whenever it contains (r, c), and contains
(p, p) for every row p. -/
theorem C10_downsample_preserves_symm_diag (v : List ℚ) (tv : List ℚ)
    (m : List (List ℕ)) (mp : ℕ) (hmp : 0 < mp) (_hvm : m.length = v.length)
    (hsq : IsSquare m)
    (hsym : ∀ i j, i < m.length → j < m.length → Mget 0 m i j = Mget 0 m j i)
    (hdiag : ∀ i, i < m.length → Mget 0 m i i = 1) :
    (∀ r c, (r, c) ∈ matrix_to_sparse_format
        (downsample_for_visualization v tv m mp).2.2 →
      (c, r) ∈ matrix_to_sparse_format
        (downsample_for_visualization v tv m mp).2.2) ∧
    (∀ p, p < (downsample_for_visualization v tv m mp).2.2.length →
      (p, p) ∈ matrix_to_sparse_format
        (downsample_for_visualization v tv m mp).2.2) := by
  rcases le_or_lt v.length mp with hle | hlt
  · rw [downsample_id v tv m hle]
    exact sparse_symm_diag hsq hsym hdiag
  · rw [downsample_stride v tv m hlt]
    have hf : 1 ≤ v.length / mp := (Nat.one_le_div_iff hmp).mpr (by omega)
    set f := v.length / mp with hfdef
    have hlen2 : ((sliceStep f m).map (sliceStep f)).length = (m.length + f - 1) / f :=
      slice_matrix_length hf m
    have hbound : ∀ p, p < ((sliceStep f m).map (sliceStep f)).length →
        p * f < m.length := by
      intro p hp
      rw [hlen2] at hp
      exact lt_of_lt_slice_len hf hp
    apply sparse_symm_diag (slice_matrix_square hf hsq)
    · intro i j hi hj
      rw [Mget_slice_matrix hf, Mget_slice_matrix hf]
      exact hsym _ _ (hbound i hi) (hbound j hj)
    · intro i hi
      rw [Mget_slice_matrix hf]
      exact hdiag _ (hbound i hi)

theorem C10_witness :
    (0, 0) ∈ matrix_to_sparse_format
      (downsample_for_visualization C10V C10V C10M 2).2.2 ∧
    (1, 1) ∈ matrix_to_sparse_format
      (downsample_for_visualization C10V C10V C10M 2).2.2 := by
  have h := C10_downsample_preserves_symm_diag C10V C10V C10M 2 (by norm_num)
    (by decide) (by decide)
    (by
      intro i j hi hj
      simp only [C10M, List.length_cons, List.length_nil] at hi hj
      interval_cases i <;> interval_cases j <;> decide)
    (by
      intro i hi
      simp only [C10M, List.length_cons, List.length_nil] at hi
      interval_cases i <;> decide)
  exact ⟨h.2 0 (by decide), h.2 1 (by decide)⟩

theorem C8_witness :
    (0, 0) ∈ matrix_to_sparse_format C8M ∧
    reconstruct C8M.length 2 (matrix_to_sparse_format C8M) = C8M := by
  have h := C8_sparse_encoder_roundtrip C8M 2 (by decide)
    (by
      intro r c hr hc
      simp only [C8M, List.length_cons, List.length_nil] at hr
      interval_cases r <;> interval_cases c <;> decide)
  exact ⟨(h.1 0 0).mpr ⟨by decide, by decide, by decide⟩, h.2.2⟩

/-! ### Pipeline-level claims (C1, C2, C3) -/

/-- C2 (amended): the time_range carried in the Result Record — in the
top-level field and in the full_data block — is the pair
(first cleaned time, last cleaned time), which coincides with
(minimum, maximum) only when the cleaned time values are ascending. -/
theorem C2_time_range_first_last (df : Df) (σ : ℚ) (r : RQAResult)
    (col : String) (rest : List String) (hcol : dataCols df = col :: rest)
    (h : process_rqa_for_datatype df σ = Except.ok (some r)) :
    r.time_range =
      ((time_clean df col).headD none, (time_clean df col).getLastD none) ∧
    r.full_time_range =
      ((time_clean df col).headD none, (time_clean df col).getLastD none) := by
  unfold process_rqa_for_datatype at h
  rw [hcol] at h
  by_cases hT : "Time" ∈ df.map Prod.fst
  · rw [if_pos hT] at h
    dsimp only at h
    by_cases hlen : (data_clean df col).length < 10
    · rw [if_pos hlen] at h
      exact absurd h (by simp)
    · rw [if_neg hlen] at h
      simp only [Except.ok.injEq, Option.some.injEq] at h
      subst h
      exact ⟨rfl, rfl⟩
  · rw [if_neg hT] at h
    exact absurd h (by simp)

/-- C2 counterexample: on an unsorted time column the recorded time_range is
(9, 8) — the (first, last) cleaned times — whereas the (min, max) over the
cleaned times is (0, 9); the cleaned times are exactly `cdfTime`, whose
minimum is 0 and maximum 9, and σ = 1 is certified by pvariance = 1. -/
theorem C2_counterexample :
    (process_rqa_for_datatype cdf 1).map (Option.map RQAResult.time_range) =
      Except.ok (some ((some 9, some 8) : RVal × RVal)) ∧
    (process_rqa_for_datatype cdf 1).map (Option.map RQAResult.time_range) ≠
      Except.ok (some ((some 0, some 9) : RVal × RVal)) ∧
    time_clean cdf "pitch" = cdfTime ∧
    pvariance (data_clean cdf "pitch") = 1 := by
  refine ⟨by with_unfolding_all rfl, by with_unfolding_all decide, by with_unfolding_all rfl, by with_unfolding_all rfl⟩

theorem C2_witness :
    process_rqa_for_datatype cdf 1 = Except.ok (some c2r) ∧
    c2r.time_range =
      ((time_clean cdf "pitch").headD none, (time_clean cdf "pitch").getLastD none) := by
  have hp : process_rqa_for_datatype cdf 1 = Except.ok (some c2r) := by with_unfolding_all rfl
  exact ⟨hp, (C2_time_range_first_last cdf 1 c2r "pitch" [] (by decide) hp).1⟩

/-- C1: the pipeline does NOT detect a zero-variance cleaned series: on a
constant series of length 10 it emits a successful Result Record whose
threshold is non-finite (NaN, from the 0/0 normalization propagated through
the distance matrix and `np.percentile`) and whose recurrence rate is −1/9,
instead of reporting a distinct DegenerateSeries failure.  The first
conjunct certifies that σ = 0 is the true standard deviation. -/
theorem C1_degenerate_not_detected :
    pvariance (data_clean cdf1 "pitch") = 0 ∧
    (process_rqa_for_datatype cdf1 0).map
      (Option.map (fun r => (r.threshold, r.recurrence_rate))) =
      Except.ok (some ((none, -(1 / 9)) : RVal × ℚ)) := by
  refine ⟨by with_unfolding_all rfl, by with_unfolding_all rfl⟩

/-- C3: a source with a Time column but no value column makes the pipeline
crash (`data_cols[0]` raises an uncaught IndexError, modelled as
`Except.error`), instead of skipping the pair non-fatally. -/
theorem C3_missing_value_column_crashes :
    process_rqa_for_datatype cdf3 0 = Except.error () ∧ dataCols cdf3 = [] := by
  refine ⟨by with_unfolding_all rfl, by with_unfolding_all rfl⟩

end RQA
